import Mathlib

/-!
Shallow embedding of the two numerical components of the repository:

* `src/keras_nlp/samplers/top_p_sampler.py` — nucleus (top-p) token selection
  (`TopPSampler.__init__`, `TopPSampler.get_next_token`), embedded over `ℚ`
  per batch row (a row is a `List ℚ`);
* `src/keras_nlp/layers/modeling/rotary_embedding.py` — rotary positional
  encoding (`RotaryEmbedding.__init__`, `call`, `_apply_rotary_pos_emb`,
  `_compute_cos_sin_embedding`), embedded at shape level (computable, over
  `List ℕ`) and at value level (over `ℝ`).

The backend primitives `random.SeedGenerator` / `random.categorical` are not
part of the repository sources under `src/`; they are modelled from the spec
(section 3 "Random-seed stream" and section 4.2 steps 7–9), as noted on the
corresponding definitions.
-/

namespace KerasNLP

/-! ## Top-p sampler: configuration (`TopPSampler.__init__`) -/

/-- Configuration stored by `TopPSampler.__init__`: `self.p`, `self.k`,
`self.seed` (floats are modelled by `ℚ`). -/
structure TopPConfig where
  p : ℚ
  k : Option ℕ
  seed : Option ℤ
deriving DecidableEq

/-- Translation of `TopPSampler.__init__`: the constructor stores `p`, `k` and
`seed` unchanged.  The error channel (`Except`) records that the source has no
`raise` path: it always returns `ok`. -/
def TopPSampler.construct (p : ℚ) (k : Option ℕ) (seed : Option ℤ) :
    Except String TopPConfig :=
  Except.ok ⟨p, k, seed⟩

/-! ## Top-p sampler: `get_next_token` -/

/-- Comparison used by `ops.top_k` on enumerated entries `(index, value)`:
descending by value; `insertionSort` with this relation is stable, matching
`top_k`'s lower-index-first tie order. -/
def probGE (a b : ℕ × ℚ) : Prop := b.2 ≤ a.2

instance : DecidableRel probGE := fun a b => inferInstanceAs (Decidable (b.2 ≤ a.2))

instance : IsTotal (ℕ × ℚ) probGE := ⟨fun a b => le_total b.2 a.2⟩

instance : IsTrans (ℕ × ℚ) probGE := ⟨fun _ _ _ h1 h2 => le_trans h2 h1⟩

/-- Translation of `ops.top_k(probabilities, k=cutoff, sorted=True)` on one
row: the `k` largest entries in descending order together with their original
vocabulary indices. -/
def top_k (probs : List ℚ) (k : ℕ) : List ℚ × List ℕ :=
  let sorted := List.insertionSort probGE probs.enum
  ((sorted.map Prod.snd).take k, (sorted.map Prod.fst).take k)

/-- Translation of `cutoff = ops.shape(probabilities)[1]` overridden by
`cutoff = self.k` when `k` is set. -/
def cutoffOf (cfg : TopPConfig) (probs : List ℚ) : ℕ :=
  cfg.k.getD probs.length

/-- The `sorted_preds` row of `get_next_token`. -/
def sortedPreds (cfg : TopPConfig) (probs : List ℚ) : List ℚ :=
  (top_k probs (cutoffOf cfg probs)).1

/-- The `sorted_indices` row of `get_next_token`. -/
def sortedIndices (cfg : TopPConfig) (probs : List ℚ) : List ℕ :=
  (top_k probs (cutoffOf cfg probs)).2

/-- Translation of `ops.cumsum(sorted_preds, axis=-1)` on one row: running
cumulative sums. -/
def cumsum : List ℚ → List ℚ
  | [] => []
  | x :: xs => x :: (cumsum xs).map (fun c => x + c)

/-- Translation of the shift
`ops.concatenate([ops.ones_like(keep_mask[:, :1]), keep_mask[:, :-1]], axis=-1)`
on one row: drop the last entry and prepend `true`. -/
def shiftedKeepMask : List Bool → List Bool
  | [] => []
  | ks => true :: ks.dropLast

/-- The row mask of `get_next_token` after the shift:
`keep_mask = cumulative_probabilities <= self.p` followed by the shift. -/
def shiftedMask (cfg : TopPConfig) (probs : List ℚ) : List Bool :=
  shiftedKeepMask ((cumsum (sortedPreds cfg probs)).map (fun c => decide (c ≤ cfg.p)))

/-- Translation of
`probabilities = ops.where(shifted_keep_mask, sorted_preds, ops.zeros(...))`
on one row. -/
def maskedPreds (cfg : TopPConfig) (probs : List ℚ) : List ℚ :=
  List.zipWith (fun m q => if m then q else 0) (shiftedMask cfg probs)
    (sortedPreds cfg probs)

/-- Log-probability value: either negative infinity (log of a non-positive
float) or the log of a positive probability `q`, represented faithfully by `q`
itself (only the exponential of a log-probability is ever consumed). -/
inductive LogProb where
  | negInf : LogProb
  | val : ℚ → LogProb
deriving DecidableEq

/-- Translation of `ops.log` on one entry: total, with `elog 0 = negInf`
(negative infinity), never an error. -/
def elog (q : ℚ) : LogProb :=
  if 0 < q then LogProb.val q else LogProb.negInf

/-- Exponential of a log-probability: the weight the categorical draw assigns
to the entry; negative infinity exponentiates to `0`. -/
def LogProb.weight : LogProb → ℚ
  | LogProb.negInf => 0
  | LogProb.val q => q

/-- Inverse-CDF selection: the least index whose running weight sum exceeds
the target, walking the weights left to right. -/
def catDraw : ℚ → List ℚ → ℕ
  | _, [] => 0
  | t, w :: ws => if t < w then 0 else catDraw (t - w) ws + 1

/-- Modelled from the spec: the backend `random.categorical` (not under
`src/`) draws one index proportionally to `exp(logits)` (spec section 4.2
step 7: un-normalized categorical sampling over `log(probabilities)`), here by
inverse-CDF over the weights with a uniform deviate `u ∈ [0,1)` scaled by the
total weight. -/
def categorical (logits : List LogProb) (u : ℚ) : ℕ :=
  let ws := logits.map LogProb.weight
  catDraw (u * ws.sum) ws

/-- The sampled sorted-axis position `sorted_next_token` of `get_next_token`,
for a uniform deviate `u`. -/
def sortedDraw (cfg : TopPConfig) (u : ℚ) (probs : List ℚ) : ℕ :=
  categorical ((maskedPreds cfg probs).map elog) u

/-- Translation of `TopPSampler.get_next_token` on one batch row, for a
uniform deviate `u`: the sampled sorted position mapped back through
`sorted_indices` (`ops.take_along_axis` followed by `ops.squeeze`). -/
def get_next_token (cfg : TopPConfig) (u : ℚ) (probs : List ℚ) : ℕ :=
  (sortedIndices cfg probs).getD (sortedDraw cfg u probs) 0

/-- Modelled from the spec: the seed stream (spec section 3) is a mutable
counter advancing deterministically once per selection call; the backend PRNG
is a fixed function `draw` from the counter state to the uniform deviate.
`select` returns the chosen token and the updated state. -/
def select (cfg : TopPConfig) (draw : ℕ → ℚ) (probs : List ℚ) (state : ℕ) :
    ℕ × ℕ :=
  (get_next_token cfg (draw state) probs, state + 1)

/-! ## Claim-side comparison definitions for the nucleus mask -/

/-- Formalisation of the claim's words (C1): the length of the smallest
descending-sorted prefix whose cumulative probability mass is `≥ p`; the whole
list when no prefix reaches `p`. -/
def smallestPrefixGE (p : ℚ) : List ℚ → ℕ
  | [] => 0
  | x :: xs => if p ≤ x then 1 else smallestPrefixGE (p - x) xs + 1

/-- Length of the retained sorted prefix as the code actually computes it: the
smallest nonempty prefix whose cumulative probability mass strictly exceeds
`p`; the whole list when no prefix exceeds `p`. -/
def smallestPrefixGT (p : ℚ) : List ℚ → ℕ
  | [] => 0
  | x :: xs => if p < x then 1 else smallestPrefixGT (p - x) xs + 1

/-- Boolean mask keeping exactly the first `n` of `len` positions. -/
def prefixMaskOf (n len : ℕ) : List Bool :=
  (List.range len).map (fun j => decide (j < n))

/-! ## Lemmas about the nucleus mask -/

lemma cumsum_length (s : List ℚ) : (cumsum s).length = s.length := by
  induction s with
  | nil => rfl
  | cons a xs ih => simp [cumsum, ih]

lemma cumsum_getD (s : List ℚ) (i : ℕ) (h : i < s.length) :
    (cumsum s).getD i 0 = (s.take (i + 1)).sum := by
  induction s generalizing i with
  | nil => simp at h
  | cons a xs ih =>
    cases i with
    | zero => simp [cumsum]
    | succ m =>
      have hm : m < xs.length := by simpa using h
      have hm2 : m < (cumsum xs).length := by rw [cumsum_length]; exact hm
      simp only [cumsum, List.getD_cons_succ, List.take_succ_cons, List.sum_cons]
      rw [List.getD_eq_getElem _ _ (by simpa using hm2), List.getElem_map,
        ← List.getD_eq_getElem _ _ hm2, ih m hm]

lemma shiftedKeepMask_length (l : List Bool) : (shiftedKeepMask l).length = l.length := by
  cases l with
  | nil => rfl
  | cons b bs => simp [shiftedKeepMask]

lemma smallestPrefixGT_pos (p : ℚ) (s : List ℚ) (hs : s ≠ []) :
    0 < smallestPrefixGT p s := by
  cases s with
  | nil => exact absurd rfl hs
  | cons a xs =>
    by_cases h : p < a <;> simp [smallestPrefixGT, h]

lemma lt_smallestPrefixGT_iff (p : ℚ) (s : List ℚ) (hnn : ∀ x ∈ s, 0 ≤ x)
    (j : ℕ) (hj : j < s.length) :
    j < smallestPrefixGT p s ↔ (j = 0 ∨ (s.take j).sum ≤ p) := by
  induction s generalizing p j with
  | nil => simp at hj
  | cons a xs ih =>
    cases j with
    | zero =>
      simp [smallestPrefixGT_pos p (a :: xs) (by simp)]
    | succ m =>
      have hm : m < xs.length := by simpa using hj
      have hnnxs : ∀ x ∈ xs, 0 ≤ x := fun x hx => hnn x (List.mem_cons_of_mem a hx)
      by_cases h : p < a
      · have htake : 0 ≤ (xs.take m).sum :=
          List.sum_nonneg (fun x hx => hnnxs x (List.mem_of_mem_take hx))
        simp only [smallestPrefixGT, if_pos h, List.take_succ_cons, List.sum_cons]
        constructor
        · omega
        · rintro (hc | hc)
          · exact absurd hc (by omega)
          · exact absurd hc (by linarith)
      · have ha : a ≤ p := le_of_not_lt h
        simp only [smallestPrefixGT, if_neg h, List.take_succ_cons, List.sum_cons,
          Nat.succ_lt_succ_iff]
        rw [ih (p - a) hnnxs m hm]
        constructor
        · rintro (hc | hc)
          · subst hc
            simpa using ha
          · right; linarith
        · intro hc
          cases Nat.eq_zero_or_pos m with
          | inl hm0 => exact Or.inl hm0
          | inr _ =>
            rcases hc with hc | hc
            · exact absurd hc (by omega)
            · right; linarith

lemma shiftedKeepMask_cons (b : Bool) (bs : List Bool) :
    shiftedKeepMask (b :: bs) = true :: (b :: bs).dropLast := rfl

lemma shiftedKeepMask_getD (l : List Bool) (i : ℕ) (h : i < l.length)
    (h0 : 0 < i) :
    (shiftedKeepMask l).getD i false = l.getD (i - 1) false := by
  cases l with
  | nil => simp at h
  | cons b bs =>
    cases i with
    | zero => omega
    | succ m =>
      have hm : m < (b :: bs).dropLast.length := by
        simp only [List.length_dropLast, List.length_cons]
        simp only [List.length_cons] at h
        omega
      rw [shiftedKeepMask_cons, List.getD_cons_succ,
        List.getD_eq_getElem _ _ hm, List.getElem_dropLast,
        List.getD_eq_getElem _ _ (show m + 1 - 1 < (b :: bs).length by omega)]
      congr 1

lemma prefixMaskOf_getD (n len i : ℕ) (h : i < len) :
    (prefixMaskOf n len).getD i false = decide (i < n) := by
  have hl : i < (prefixMaskOf n len).length := by simpa [prefixMaskOf] using h
  rw [List.getD_eq_getElem _ _ hl]
  simp [prefixMaskOf]

lemma shiftedKeepMask_getD_zero (l : List Bool) (h : l ≠ []) :
    (shiftedKeepMask l).getD 0 false = true := by
  obtain ⟨b, bs, rfl⟩ := List.exists_cons_of_ne_nil h
  simp [shiftedKeepMask_cons]

/-- The shifted keep-mask of the code is exactly the mask of the smallest
nonempty prefix whose cumulative mass strictly exceeds `p` (everything when no
prefix exceeds `p`), for any row with nonnegative entries. -/
lemma shiftedKeepMask_eq_prefixMask (p : ℚ) (s : List ℚ) (hnn : ∀ x ∈ s, 0 ≤ x) :
    shiftedKeepMask ((cumsum s).map (fun c => decide (c ≤ p)))
      = prefixMaskOf (smallestPrefixGT p s) s.length := by
  rcases List.eq_nil_or_concat s with hs | ⟨_, _, hs⟩
  · subst hs
    simp [cumsum, shiftedKeepMask, prefixMaskOf]
  · have hne : s ≠ [] := by rw [hs]; simp
    clear hs
    apply List.ext_getElem
    · simp [shiftedKeepMask_length, cumsum_length, prefixMaskOf]
    · intro i h1 h2
      have hilen : i < s.length := by
        simpa [shiftedKeepMask_length, cumsum_length] using h1
      rw [← List.getD_eq_getElem _ false h1, ← List.getD_eq_getElem _ false h2,
        prefixMaskOf_getD _ _ i hilen]
      cases Nat.eq_zero_or_pos i with
      | inl hi0 =>
        subst hi0
        rw [shiftedKeepMask_getD_zero]
        · simp [smallestPrefixGT_pos p s hne]
        · intro hmap
          have hlen := congrArg List.length hmap
          simp [cumsum_length] at hlen
          exact hne hlen
      | inr hi0 =>
        have hkl : i < ((cumsum s).map (fun c => decide (c ≤ p))).length := by
          simpa [cumsum_length] using hilen
        rw [shiftedKeepMask_getD _ i hkl hi0]
        have him : i - 1 < (cumsum s).length := by
          rw [cumsum_length]; omega
        have hgm : ((cumsum s).map (fun c => decide (c ≤ p))).getD (i - 1) false
            = decide ((cumsum s).getD (i - 1) 0 ≤ p) := by
          rw [List.getD_eq_getElem _ _ (by simpa using him), List.getElem_map,
            ← List.getD_eq_getElem _ _ him]
        rw [hgm, cumsum_getD s (i - 1) (by omega)]
        have hiff : (s.take (i - 1 + 1)).sum ≤ p ↔ i < smallestPrefixGT p s := by
          rw [lt_smallestPrefixGT_iff p s hnn i hilen]
          have hii : i - 1 + 1 = i := by omega
          rw [hii]
          constructor
          · exact fun h => Or.inr h
          · rintro (h | h)
            · omega
            · exact h
        exact decide_eq_decide.mpr hiff

/-! ## Lemmas about `top_k`, the masked row and the categorical draw -/

lemma sortedPreds_eq_of_k_none (cfg : TopPConfig) (probs : List ℚ) (hk : cfg.k = none) :
    sortedPreds cfg probs = (List.insertionSort probGE probs.enum).map Prod.snd := by
  have hlen : ((List.insertionSort probGE probs.enum).map Prod.snd).length = probs.length := by
    simp [List.length_insertionSort]
  simp [sortedPreds, top_k, cutoffOf, hk, List.take_of_length_le, hlen.le]

lemma sortedIndices_eq_of_k_none (cfg : TopPConfig) (probs : List ℚ) (hk : cfg.k = none) :
    sortedIndices cfg probs = (List.insertionSort probGE probs.enum).map Prod.fst := by
  have hlen : ((List.insertionSort probGE probs.enum).map Prod.fst).length = probs.length := by
    simp [List.length_insertionSort]
  simp [sortedIndices, top_k, cutoffOf, hk, List.take_of_length_le, hlen.le]

lemma sortedPreds_perm (cfg : TopPConfig) (probs : List ℚ) (hk : cfg.k = none) :
    List.Perm (sortedPreds cfg probs) probs := by
  rw [sortedPreds_eq_of_k_none cfg probs hk]
  have h1 : List.Perm (List.insertionSort probGE probs.enum) probs.enum :=
    List.perm_insertionSort probGE probs.enum
  simpa [List.enum_map_snd] using h1.map Prod.snd

lemma sortedPreds_length (cfg : TopPConfig) (probs : List ℚ) (hk : cfg.k = none) :
    (sortedPreds cfg probs).length = probs.length :=
  (sortedPreds_perm cfg probs hk).length_eq

lemma sortedIndices_length (cfg : TopPConfig) (probs : List ℚ) (hk : cfg.k = none) :
    (sortedIndices cfg probs).length = probs.length := by
  rw [sortedIndices_eq_of_k_none cfg probs hk]
  simp [List.length_insertionSort]

lemma sortedIndices_mem_lt (cfg : TopPConfig) (probs : List ℚ) (hk : cfg.k = none)
    (i : ℕ) (hi : i ∈ sortedIndices cfg probs) : i < probs.length := by
  rw [sortedIndices_eq_of_k_none cfg probs hk] at hi
  obtain ⟨pr, hpr, hfst⟩ := List.mem_map.mp hi
  rw [List.mem_insertionSort, List.enum_eq_zip_range] at hpr
  have := (List.of_mem_zip hpr).1
  rw [hfst] at this
  exact List.mem_range.mp this

lemma sortedPreds_nonneg (cfg : TopPConfig) (probs : List ℚ) (hk : cfg.k = none)
    (hnn : ∀ x ∈ probs, 0 ≤ x) : ∀ x ∈ sortedPreds cfg probs, 0 ≤ x :=
  fun x hx => hnn x ((sortedPreds_perm cfg probs hk).mem_iff.mp hx)

lemma sortedPreds_sorted (cfg : TopPConfig) (probs : List ℚ) (hk : cfg.k = none) :
    List.Sorted (fun x y : ℚ => y ≤ x) (sortedPreds cfg probs) := by
  rw [sortedPreds_eq_of_k_none cfg probs hk]
  exact List.Pairwise.map Prod.snd (fun a b h => h)
    (List.sorted_insertionSort probGE probs.enum)

lemma exists_pos_of_sum_one (l : List ℚ) (hnn : ∀ x ∈ l, 0 ≤ x) (hsum : l.sum = 1) :
    ∃ x ∈ l, 0 < x := by
  by_contra h
  push_neg at h
  have : ∀ x ∈ l, x = 0 := fun x hx => le_antisymm (h x hx) (hnn x hx)
  rw [List.sum_eq_zero this] at hsum
  exact absurd hsum (by norm_num)

lemma sortedPreds_head_pos (cfg : TopPConfig) (probs : List ℚ) (hk : cfg.k = none)
    (hnn : ∀ x ∈ probs, 0 ≤ x) (hsum : probs.sum = 1) :
    ∃ a t, sortedPreds cfg probs = a :: t ∧ 0 < a ∧ (∀ x ∈ t, 0 ≤ x) := by
  have hperm := sortedPreds_perm cfg probs hk
  have hne : sortedPreds cfg probs ≠ [] := by
    intro h
    rw [h] at hperm
    rw [hperm.symm.eq_nil] at hsum
    exact absurd hsum (by norm_num)
  obtain ⟨a, t, hat⟩ := List.exists_cons_of_ne_nil hne
  have hsorted := sortedPreds_sorted cfg probs hk
  rw [hat] at hsorted hperm
  have hta : ∀ b ∈ t, b ≤ a := (List.sorted_cons.mp hsorted).1
  obtain ⟨y, hy, hy0⟩ := exists_pos_of_sum_one probs hnn hsum
  have hymem : y ∈ a :: t := hperm.mem_iff.mpr hy
  have ha : 0 < a := by
    rcases List.mem_cons.mp hymem with h | h
    · rw [← h]; exact hy0
    · exact lt_of_lt_of_le hy0 (hta y h)
  refine ⟨a, t, hat, ha, fun x hx => ?_⟩
  have : x ∈ probs := hperm.mem_iff.mp (List.mem_cons_of_mem a hx)
  exact hnn x this

lemma zipWith_ite_nonneg (ms : List Bool) (qs : List ℚ) (h : ∀ x ∈ qs, 0 ≤ x) :
    ∀ y ∈ List.zipWith (fun m q => if m then q else 0) ms qs, 0 ≤ y := by
  induction ms generalizing qs with
  | nil => simp
  | cons m ms ih =>
    cases qs with
    | nil => simp
    | cons q qs =>
      intro y hy
      rcases List.mem_cons.mp hy with h1 | h1
      · subst h1
        by_cases hm : m
        · simpa [hm] using h q (by simp)
        · simp [hm]
      · exact ih qs (fun x hx => h x (List.mem_cons_of_mem q hx)) y h1

lemma maskedPreds_cons (cfg : TopPConfig) (probs : List ℚ) (a : ℚ) (t : List ℚ)
    (hsp : sortedPreds cfg probs = a :: t) :
    ∃ ms : List Bool, maskedPreds cfg probs
      = a :: List.zipWith (fun m q => if m then q else 0) ms t := by
  refine ⟨((cumsum (a :: t)).map (fun c => decide (c ≤ cfg.p))).dropLast, ?_⟩
  simp only [maskedPreds, shiftedMask, hsp]
  have hlist : (cumsum (a :: t)).map (fun c => decide (c ≤ cfg.p))
      = decide (a ≤ cfg.p)
        :: ((cumsum t).map (fun c => a + c)).map (fun c => decide (c ≤ cfg.p)) := by
    simp [cumsum]
  rw [hlist, shiftedKeepMask_cons, ← hlist]
  simp

lemma maskedPreds_nonneg (cfg : TopPConfig) (probs : List ℚ) (hk : cfg.k = none)
    (hnn : ∀ x ∈ probs, 0 ≤ x) : ∀ x ∈ maskedPreds cfg probs, 0 ≤ x := by
  exact zipWith_ite_nonneg _ _ (sortedPreds_nonneg cfg probs hk hnn)

lemma maskedPreds_length (cfg : TopPConfig) (probs : List ℚ) (hk : cfg.k = none) :
    (maskedPreds cfg probs).length = probs.length := by
  simp [maskedPreds, shiftedMask, shiftedKeepMask_length, cumsum_length,
    sortedPreds_length cfg probs hk]

lemma maskedPreds_sum_pos (cfg : TopPConfig) (probs : List ℚ) (hk : cfg.k = none)
    (hnn : ∀ x ∈ probs, 0 ≤ x) (hsum : probs.sum = 1) :
    0 < (maskedPreds cfg probs).sum := by
  obtain ⟨a, t, hsp, ha, htn⟩ := sortedPreds_head_pos cfg probs hk hnn hsum
  obtain ⟨ms, hm⟩ := maskedPreds_cons cfg probs a t hsp
  rw [hm, List.sum_cons]
  have htail : 0 ≤ (List.zipWith (fun m q => if m then q else 0) ms t).sum :=
    List.sum_nonneg (zipWith_ite_nonneg ms t htn)
  linarith

lemma weight_elog (q : ℚ) (h : 0 ≤ q) : (elog q).weight = q := by
  by_cases h0 : 0 < q
  · simp [elog, h0, LogProb.weight]
  · have : q = 0 := le_antisymm (not_lt.mp h0) h
    simp [elog, this, LogProb.weight]

lemma map_weight_elog (l : List ℚ) (h : ∀ x ∈ l, 0 ≤ x) :
    (l.map elog).map LogProb.weight = l := by
  rw [List.map_map]
  exact (List.map_congr_left (fun x hx => weight_elog x (h x hx))).trans (List.map_id l)

lemma sortedDraw_eq_catDraw (cfg : TopPConfig) (probs : List ℚ) (u : ℚ)
    (hmn : ∀ x ∈ maskedPreds cfg probs, 0 ≤ x) :
    sortedDraw cfg u probs
      = catDraw (u * (maskedPreds cfg probs).sum) (maskedPreds cfg probs) := by
  unfold sortedDraw categorical
  rw [map_weight_elog _ hmn]

lemma catDraw_lt_length_and_pos (ws : List ℚ) (t : ℚ) (hnn : ∀ w ∈ ws, 0 ≤ w)
    (h0 : 0 ≤ t) (h1 : t < ws.sum) :
    catDraw t ws < ws.length ∧ 0 < ws.getD (catDraw t ws) 0 := by
  induction ws generalizing t with
  | nil =>
    simp only [List.sum_nil] at h1
    linarith
  | cons w ws ih =>
    by_cases h : t < w
    · refine ⟨by simp [catDraw, h], ?_⟩
      simp only [catDraw, if_pos h, List.getD_cons_zero]
      linarith
    · have hw : 0 ≤ w := hnn w (by simp)
      have hsum : t - w < ws.sum := by
        rw [List.sum_cons] at h1
        linarith
      have := ih (t - w) (fun x hx => hnn x (List.mem_cons_of_mem w hx))
        (by linarith [not_lt.mp h]) hsum
      refine ⟨?_, ?_⟩
      · simp only [catDraw, if_neg h, List.length_cons]
        omega
      · simpa [catDraw, if_neg h] using this.2

/-! ## Rotary embedding: configuration (`RotaryEmbedding.__init__`) -/

/-- Configuration stored by `RotaryEmbedding.__init__`: `self.max_wavelength`,
`self.scaling_factor`, `self.sequence_axis`, `self.feature_axis` (numeric
parameters modelled by `ℚ`, axis specifiers by `ℤ`). -/
structure RotaryConfig where
  max_wavelength : ℚ
  scaling_factor : ℚ
  sequence_axis : ℤ
  feature_axis : ℤ
deriving DecidableEq

/-- Translation of `RotaryEmbedding.__init__`: the constructor stores the four
parameters unchanged.  The error channel (`Except`) records that the source
has no `raise` path: it always returns `ok`. -/
def RotaryEmbedding.construct (maxWavelength scaling : ℚ) (seqAxis featAxis : ℤ) :
    Except String RotaryConfig :=
  Except.ok ⟨maxWavelength, scaling, seqAxis, featAxis⟩

/-! ## Claim theorems: top-p sampler -/

/-- Claim C1, counterexample.  On the row-stochastic row `[1/2, 1/2]` with
`p = 1/2` the cumulative sum hits `p` exactly, the shifted keep-mask retains
both sorted positions, but the smallest sorted prefix with cumulative mass
`≥ p` has length 1: the retained set is not that prefix. -/
theorem topP_keepmask_ge_claim_cex :
    shiftedMask ⟨1/2, none, none⟩ [(1:ℚ)/2, 1/2]
      ≠ prefixMaskOf (smallestPrefixGE ((1:ℚ)/2)
          (sortedPreds ⟨1/2, none, none⟩ [(1:ℚ)/2, 1/2])) 2 := by
  norm_num [shiftedMask, sortedPreds, cutoffOf, top_k, cumsum, shiftedKeepMask,
    smallestPrefixGE, prefixMaskOf, List.insertionSort, List.orderedInsert, probGE,
    List.enum, List.enumFrom, List.range_succ]

/-- Claim C1, amended.  For every probability row with nonnegative entries and
`k` unset, the shifted keep-mask of `get_next_token` retains exactly the
smallest nonempty descending-sorted prefix whose cumulative mass is strictly
greater than `p` (the boundary element that pushes the sum over `p` included;
the whole row when no prefix exceeds `p`); for rows where no cumulative sum
equals `p` exactly this is the smallest prefix with mass `≥ p`.  In
particular, for the row `[0.05, 0.9, 0.05]` with `p = 0.5` only the entry with
probability `0.9` is retained and the selector returns its index `1` for every
uniform deviate `u ∈ [0,1)`, i.e. regardless of seed. -/
theorem topP_keepmask_smallest_strict (cfg : TopPConfig) (probs : List ℚ)
    (hk : cfg.k = none) (hnn : ∀ x ∈ probs, 0 ≤ x) :
    shiftedMask cfg probs
      = prefixMaskOf (smallestPrefixGT cfg.p (sortedPreds cfg probs)) probs.length
    ∧ ∀ u : ℚ, 0 ≤ u → u < 1 →
        get_next_token ⟨1/2, none, none⟩ u [(1:ℚ)/20, 9/10, 1/20] = 1 := by
  constructor
  · have h := shiftedKeepMask_eq_prefixMask cfg.p (sortedPreds cfg probs)
      (sortedPreds_nonneg cfg probs hk hnn)
    rw [shiftedMask, h, sortedPreds_length cfg probs hk]
  · intro u h0 h1
    have hu : u * (9/10 : ℚ) < 9/10 := by nlinarith
    norm_num [get_next_token, sortedDraw, sortedIndices, maskedPreds, shiftedMask,
      sortedPreds, cutoffOf, top_k, cumsum, shiftedKeepMask, categorical, catDraw,
      elog, LogProb.weight, List.insertionSort, List.orderedInsert, probGE,
      List.enum, List.enumFrom, hu]

/-- Witness for the amended claim C1 at the concrete scenario of the spec. -/
theorem topP_keepmask_smallest_strict_w :
    shiftedMask ⟨1/2, none, none⟩ [(1:ℚ)/20, 9/10, 1/20]
      = prefixMaskOf (smallestPrefixGT ((1:ℚ)/2)
          (sortedPreds ⟨1/2, none, none⟩ [(1:ℚ)/20, 9/10, 1/20])) 3
    ∧ get_next_token ⟨1/2, none, none⟩ 0 [(1:ℚ)/20, 9/10, 1/20] = 1 := by
  have h := topP_keepmask_smallest_strict ⟨1/2, none, none⟩ [(1:ℚ)/20, 9/10, 1/20]
    rfl (by norm_num)
  exact ⟨h.1, h.2 0 le_rfl (by norm_num)⟩

/-- Claim C2.  For every probability row (nonnegative entries summing to 1),
`k` unset and uniform deviate `u ∈ [0,1)`: the log of an exact zero is the
negative-infinity log-probability (a value, not an error), and the sorted
position drawn by the categorical step always carries a strictly positive
masked probability — entries zeroed out by the nucleus mask are never
selected. -/
theorem topP_zero_prob_never_selected (cfg : TopPConfig) (probs : List ℚ) (u : ℚ)
    (hk : cfg.k = none) (hnn : ∀ x ∈ probs, 0 ≤ x) (hsum : probs.sum = 1)
    (hu0 : 0 ≤ u) (hu1 : u < 1) :
    elog 0 = LogProb.negInf
    ∧ 0 < (maskedPreds cfg probs).getD (sortedDraw cfg u probs) 0 := by
  have hmn := maskedPreds_nonneg cfg probs hk hnn
  have hsp := maskedPreds_sum_pos cfg probs hk hnn hsum
  have ht0 : 0 ≤ u * (maskedPreds cfg probs).sum := mul_nonneg hu0 hsp.le
  have ht1 : u * (maskedPreds cfg probs).sum < (maskedPreds cfg probs).sum := by
    nlinarith
  refine ⟨by simp [elog], ?_⟩
  rw [sortedDraw_eq_catDraw cfg probs u hmn]
  exact (catDraw_lt_length_and_pos _ _ hmn ht0 ht1).2

/-- Witness for claim C2 at a concrete row, threshold and deviate. -/
theorem topP_zero_prob_never_selected_w :
    elog 0 = LogProb.negInf
    ∧ 0 < (maskedPreds ⟨1/10, none, none⟩ [(1:ℚ)/2, 1/2]).getD
        (sortedDraw ⟨1/10, none, none⟩ (1/3) [(1:ℚ)/2, 1/2]) 0 :=
  topP_zero_prob_never_selected ⟨1/10, none, none⟩ [(1:ℚ)/2, 1/2] (1/3)
    rfl (by norm_num) (by norm_num) (by norm_num) (by norm_num)

/-- Claim C3.  For every `p ∈ (0,1)` and every probability row with `k`
unset: position 0 of the shifted keep-mask is `true`, so at least one entry is
retained; the masked candidate set is not all-zero (its total mass is
positive); and for every uniform deviate `u ∈ [0,1)` the selector returns an
in-range vocabulary index — it never fails on an empty candidate set. -/
theorem topP_mask_keeps_at_least_one (cfg : TopPConfig) (probs : List ℚ)
    (hk : cfg.k = none) (hnn : ∀ x ∈ probs, 0 ≤ x) (hsum : probs.sum = 1)
    (hp0 : 0 < cfg.p) (hp1 : cfg.p < 1) :
    (shiftedMask cfg probs).getD 0 false = true
    ∧ 0 < (maskedPreds cfg probs).sum
    ∧ ∀ u : ℚ, 0 ≤ u → u < 1 → get_next_token cfg u probs < probs.length := by
  have hmn := maskedPreds_nonneg cfg probs hk hnn
  have hsp := maskedPreds_sum_pos cfg probs hk hnn hsum
  have hpne : probs ≠ [] := by
    intro h
    rw [h] at hsum
    exact absurd hsum (by norm_num)
  refine ⟨?_, hsp, ?_⟩
  · rw [shiftedMask]
    apply shiftedKeepMask_getD_zero
    intro h
    have := congrArg List.length h
    simp only [cumsum_length, List.length_map, List.length_nil,
      sortedPreds_length cfg probs hk] at this
    exact hpne (List.length_eq_zero.mp this)
  · intro u hu0 hu1
    have ht0 : 0 ≤ u * (maskedPreds cfg probs).sum := mul_nonneg hu0 hsp.le
    have ht1 : u * (maskedPreds cfg probs).sum < (maskedPreds cfg probs).sum := by
      nlinarith
    have hj : sortedDraw cfg u probs < probs.length := by
      rw [sortedDraw_eq_catDraw cfg probs u hmn]
      have h := (catDraw_lt_length_and_pos _ _ hmn ht0 ht1).1
      rwa [maskedPreds_length cfg probs hk] at h
    have hjlt : sortedDraw cfg u probs < (sortedIndices cfg probs).length := by
      rw [sortedIndices_length cfg probs hk]
      exact hj
    rw [get_next_token, List.getD_eq_getElem _ _ hjlt]
    exact sortedIndices_mem_lt cfg probs hk _ (List.getElem_mem hjlt)

/-- Witness for claim C3 at a concrete threshold, row and deviate. -/
theorem topP_mask_keeps_at_least_one_w :
    (shiftedMask ⟨1/10, none, none⟩ [(1:ℚ)/2, 1/2]).getD 0 false = true
    ∧ 0 < (maskedPreds ⟨1/10, none, none⟩ [(1:ℚ)/2, 1/2]).sum
    ∧ get_next_token ⟨1/10, none, none⟩ 0 [(1:ℚ)/2, 1/2] < 2 := by
  have h := topP_mask_keeps_at_least_one ⟨1/10, none, none⟩ [(1:ℚ)/2, 1/2]
    rfl (by norm_num) (by norm_num) (by norm_num) (by norm_num)
  exact ⟨h.1, h.2.1, h.2.2 0 le_rfl (by norm_num)⟩

/-- Claim C4, counterexample.  `TopPSampler.__init__` accepts `p = 2 ∉ (0,1]`
and `k = 0 ∉ [1, vocab_size]` without raising, storing them unchanged;
`RotaryEmbedding.__init__` accepts `sequence_axis == feature_axis` without
raising; and `get_next_token` runs normally with the invalid `p = 2` — no
fail-fast precondition error exists anywhere on these paths. -/
theorem construct_accepts_invalid_cex :
    TopPSampler.construct 2 (some 0) none = Except.ok ⟨2, some 0, none⟩
    ∧ RotaryEmbedding.construct 10000 1 1 1 = Except.ok ⟨10000, 1, 1, 1⟩
    ∧ get_next_token ⟨2, none, none⟩ 0 [(1:ℚ)/2, 1/2] = 0 := by
  refine ⟨rfl, rfl, ?_⟩
  norm_num [get_next_token, sortedDraw, sortedIndices, maskedPreds, shiftedMask,
    sortedPreds, cutoffOf, top_k, cumsum, shiftedKeepMask, categorical, catDraw,
    elog, LogProb.weight, List.insertionSort, List.orderedInsert, probGE,
    List.enum, List.enumFrom]

/-- Claim C4, amended.  Neither constructor validates its configuration: every
`p`, `k`, `seed`, `max_wavelength`, `scaling_factor`, `sequence_axis`,
`feature_axis` — including values the spec calls invalid — is accepted and
stored unchanged; no precondition-violation error is raised and no value is
coerced. -/
theorem construct_no_validation (p : ℚ) (k : Option ℕ) (seed : Option ℤ)
    (maxW scaling : ℚ) (seqA featA : ℤ) :
    TopPSampler.construct p k seed = Except.ok ⟨p, k, seed⟩
    ∧ RotaryEmbedding.construct maxW scaling seqA featA
        = Except.ok ⟨maxW, scaling, seqA, featA⟩ :=
  ⟨rfl, rfl⟩

/-- Claim C10.  Two runs of the selector on the same distribution from the
same initial seed state yield the same token and the same final seed state;
the state advances deterministically (by one) per draw, so a fixed initial
seed reproduces the same sequence of draws. -/
theorem select_deterministic (cfg : TopPConfig) (draw : ℕ → ℚ) (probs : List ℚ)
    (state : ℕ) (r1 r2 : ℕ × ℕ)
    (h1 : r1 = select cfg draw probs state) (h2 : r2 = select cfg draw probs state) :
    r1.1 = r2.1 ∧ r1.2 = r2.2 ∧ r1.2 = state + 1 := by
  subst h1
  subst h2
  exact ⟨rfl, rfl, rfl⟩

/-- Witness for claim C10: two concrete identical runs. -/
theorem select_deterministic_w :
    (select ⟨1/10, none, none⟩ (fun _ => 0) [(1:ℚ)/2, 1/2] 5).1
        = (select ⟨1/10, none, none⟩ (fun _ => 0) [(1:ℚ)/2, 1/2] 5).1
    ∧ (select ⟨1/10, none, none⟩ (fun _ => 0) [(1:ℚ)/2, 1/2] 5).2
        = (select ⟨1/10, none, none⟩ (fun _ => 0) [(1:ℚ)/2, 1/2] 5).2
    ∧ (select ⟨1/10, none, none⟩ (fun _ => 0) [(1:ℚ)/2, 1/2] 5).2 = 5 + 1 :=
  select_deterministic ⟨1/10, none, none⟩ (fun _ => 0) [(1:ℚ)/2, 1/2] 5 _ _ rfl rfl

/-! ## Rotary embedding: shape semantics of `call` -/

/-- Python-style index normalization on a shape of rank `rank`: negative
indices count from the end; out-of-range indices are a backend error
(`none`). -/
def normIndex (rank : ℕ) (i : ℤ) : Option ℕ :=
  if i < 0 then (if -i ≤ (rank : ℤ) then some (rank - (-i).toNat) else none)
  else (if i < (rank : ℤ) then some i.toNat else none)

/-- Python-style indexing into a shape: the dimension at index `i`. -/
def pyIndexVal (shape : List ℕ) (i : ℤ) : Option ℕ :=
  (normIndex shape.length i).map (fun a => shape.getD a 0)

/-- Translation of `rotary_dim = ops.shape(inputs)[-1]` in
`RotaryEmbedding.call`: the size of the LAST axis, whatever `feature_axis`
is configured. -/
def rotaryDimOf (shape : List ℕ) : Option ℕ :=
  pyIndexVal shape (-1)

/-- Translation of the helper `get_axis` in `_compute_cos_sin_embedding`:
`axis if axis > 0 else len(x.shape) + axis`. -/
def get_axis (rank : ℕ) (axis : ℤ) : ℤ :=
  if 0 < axis then axis else (rank : ℤ) + axis

/-- Shape of `ops.expand_dims(e, axis)`: insert a unit dimension at `axis`
(an error when `axis` exceeds the current rank). -/
def expandDimsShape (s : List ℕ) (axis : ℕ) : Option (List ℕ) :=
  if axis ≤ s.length then some (s.take axis ++ 1 :: s.drop axis) else none

/-- Numpy-style broadcast of two dimension sizes. -/
def broadcastDim (a b : ℕ) : Option ℕ :=
  if a = b then some a else if a = 1 then some b else if b = 1 then some a else none

/-- Broadcast of two reversed (trailing-aligned) shapes. -/
def broadcastRev : List ℕ → List ℕ → Option (List ℕ)
  | [], s => some s
  | a :: as, [] => some (a :: as)
  | a :: as, b :: bs => do
      let d ← broadcastDim a b
      let rest ← broadcastRev as bs
      some (d :: rest)

/-- Numpy-style broadcast of two shapes (right-aligned). -/
def broadcastShapes (s1 s2 : List ℕ) : Option (List ℕ) :=
  (broadcastRev s1.reverse s2.reverse).map List.reverse

/-- Shape of `ops.split(tensor, 2, axis=feature_axis)`'s halves: the feature
axis must be even, and is halved. -/
def splitHalfShape (shape : List ℕ) (axis : ℤ) : Option (List ℕ) := do
  let a ← normIndex shape.length axis
  let n := shape.getD a 0
  if n % 2 = 0 then some (shape.set a (n / 2)) else none

/-- Shape of `ops.concatenate((-x2, x1), axis=feature_axis)` on two equal
shapes: the axis doubles. -/
def concatDoubleShape (shape : List ℕ) (axis : ℤ) : Option (List ℕ) := do
  let a ← normIndex shape.length axis
  some (shape.set a (2 * shape.getD a 0))

/-- Shape semantics of `_compute_cos_sin_embedding`: `freq` is the
`(seq_len, ceil(rotary_dim / 2))` outer product, `embedding` concatenates it
with itself along `self.feature_axis` (an axis of the rank-2 `freq` tensor),
and a unit dimension is inserted at every input axis that differs from both
`get_axis`-normalized axes. -/
def computeCosSinShape (cfg : RotaryConfig) (shape : List ℕ) (rotaryDim : ℕ) :
    Option (List ℕ) := do
  let h0 := (rotaryDim + 1) / 2
  let si ← normIndex shape.length cfg.sequence_axis
  let seqLen := shape.getD si 0
  let ca ← normIndex 2 cfg.feature_axis
  let emb0 : List ℕ := if ca = 0 then [2 * seqLen, h0] else [seqLen, 2 * h0]
  let fa := get_axis shape.length cfg.feature_axis
  let sa := get_axis shape.length cfg.sequence_axis
  (List.range shape.length).foldlM
    (fun e (a : ℕ) => if (a : ℤ) ≠ sa ∧ (a : ℤ) ≠ fa then expandDimsShape e a else some e)
    emb0

/-- Shape semantics of `RotaryEmbedding.call`:
`rotary_dim = shape[-1]`, the cos/sin embedding shape, the split/concatenate
of the feature axis, and the two broadcast multiplications followed by the
broadcast addition. -/
def callShape (cfg : RotaryConfig) (shape : List ℕ) : Option (List ℕ) := do
  let rotaryDim ← rotaryDimOf shape
  let emb ← computeCosSinShape cfg shape rotaryDim
  let halfShape ← splitHalfShape shape cfg.feature_axis
  let rotShape ← concatDoubleShape halfShape cfg.feature_axis
  let m1 ← broadcastShapes shape emb
  let m2 ← broadcastShapes rotShape emb
  broadcastShapes m1 m2

/-- Translation of `RotaryEmbedding.compute_output_shape`: the layer declares
its output shape equal to its input shape. -/
def compute_output_shape (shape : List ℕ) : List ℕ := shape

/-! ## Claim theorems: rotary embedding, shape level -/

/-- Claim C5 evaluation at the failing input.  With `feature_axis = 1` and
input shape `(2, 4, 6)`, `call` sets `rotary_dim` to the LAST-axis size `6`,
not to the configured feature-axis size `4`: the claim that `rotary_dim` is
the size of the configured feature axis fails on the code. -/
theorem rotary_dim_last_axis_eval :
    rotaryDimOf [2, 4, 6] = some 6
    ∧ pyIndexVal [2, 4, 6] 1 = some 4
    ∧ rotaryDimOf [2, 4, 6] ≠ pyIndexVal [2, 4, 6] 1 := by
  decide

/-- Claim C6 evaluation at the failing input.  `get_axis` tests `axis > 0`,
not `axis >= 0`: the specifier `0` at rank 3 normalizes to `3 + 0 = 3`, not to
`0`, violating the claimed invariant `0 ≤ axis < rank`; negative and positive
specifiers behave as claimed. -/
theorem get_axis_zero_eval :
    get_axis 3 0 = 3
    ∧ ¬ get_axis 3 0 < 3
    ∧ get_axis 3 (-1) = 2
    ∧ get_axis 3 (-3) = 0
    ∧ get_axis 3 2 = 2 := by
  decide

/-- Claim C7 evaluation at the failing input.  For the valid input shape
`(2, 4)` (rank 2, even feature size 4, distinct valid axes
`sequence_axis = 0`, `feature_axis = 1`), `call` returns a tensor of shape
`(1, 2, 4)`: the `get_axis` slip on specifier `0` makes the broadcast insert a
leading unit axis, so the output shape differs from the input shape and from
the layer's own `compute_output_shape`. -/
theorem rotary_call_shape_not_preserved_eval :
    callShape ⟨10000, 1, 0, 1⟩ [2, 4] = some [1, 2, 4]
    ∧ callShape ⟨10000, 1, 0, 1⟩ [2, 4] ≠ some (compute_output_shape [2, 4]) := by
  decide

/-! ## Rotary embedding: value semantics (default axes) -/

/-- Value-level translation of the frequency vector of
`_compute_cos_sin_embedding`:
`freq_range = arange(0, rotary_dim, 2) / scaling_factor` and
`inverse_freq = 1 / max_wavelength ** (freq_range / rotary_dim)`
(floats modelled by `ℝ`). -/
noncomputable def inverse_freq (maxWavelength scaling : ℝ) (rotaryDim : ℕ) : List ℝ :=
  (List.range ((rotaryDim + 1) / 2)).map
    (fun i => 1 / maxWavelength ^ ((((2 * i : ℕ) : ℝ) / scaling) / (rotaryDim : ℝ)))

/-- Value-level translation of the rotary transform on one (batch, position)
feature row `t`, for the default configuration `sequence_axis = 1`,
`feature_axis = -1` on a rank-3 input: the angle row is
`embedding = concat(freq, freq)` with `freq = pos * inverse_freq` (the
`einsum` row at sequence position `pos`), the row is split into equal halves
`x1, x2`, `half_rot = concat(-x2, x1)`, and the output row is
`t * cos(embedding) + half_rot * sin(embedding)`
(`_apply_rotary_pos_emb`). -/
noncomputable def applyRotaryRow (maxWavelength scaling : ℝ) (rotaryDim pos : ℕ)
    (t : List ℝ) : List ℝ :=
  let freq := (inverse_freq maxWavelength scaling rotaryDim).map
    (fun w => (pos : ℝ) * w)
  let embedding := freq ++ freq
  let x1 := t.take (t.length / 2)
  let x2 := t.drop (t.length / 2)
  let half_rot := (x2.map (fun v => -v)) ++ x1
  List.zipWith (fun a b => a + b)
    (List.zipWith (fun a b => a * b) t (embedding.map Real.cos))
    (List.zipWith (fun a b => a * b) half_rot (embedding.map Real.sin))

/-- Value-level translation of `RotaryEmbedding.call` on a rank-3 input
`(batch, sequence, feature)` with the default `sequence_axis = 1`,
`feature_axis = -1` (for which the cos/sin embedding broadcasts over the
batch axis): `rotary_dim = ops.shape(inputs)[-1]` and each sequence row is
rotated by its own position. -/
noncomputable def rotaryCall (maxWavelength scaling : ℝ)
    (x : List (List (List ℝ))) : List (List (List ℝ)) :=
  let rotaryDim := ((x.headD []).headD []).length
  x.map (fun batchRow => batchRow.enum.map
    (fun pr => applyRotaryRow maxWavelength scaling rotaryDim pr.1 pr.2))

/-! ## Lemmas about the rotary value semantics -/

lemma zipWith_mul_replicate_one (t : List ℝ) (n : ℕ) (h : t.length ≤ n) :
    List.zipWith (fun a b => a * b) t (List.replicate n (1:ℝ)) = t := by
  induction t generalizing n with
  | nil => simp
  | cons a ts ih =>
    cases n with
    | zero => simp at h
    | succ m =>
      simp only [List.replicate_succ, List.zipWith_cons_cons, mul_one]
      rw [ih m (by simpa using h)]

lemma zipWith_mul_replicate_zero (v : List ℝ) (n : ℕ) :
    List.zipWith (fun a b => a * b) v (List.replicate n (0:ℝ))
      = List.replicate (min v.length n) 0 := by
  induction v generalizing n with
  | nil => simp
  | cons a ts ih =>
    cases n with
    | zero => simp
    | succ m =>
      simp only [List.replicate_succ, List.zipWith_cons_cons, mul_zero,
        List.length_cons]
      rw [ih m]
      have : min (ts.length + 1) (m + 1) = min ts.length m + 1 := by omega
      rw [this, List.replicate_succ]

lemma zipWith_add_replicate_zero (t : List ℝ) (n : ℕ) (h : t.length ≤ n) :
    List.zipWith (fun a b => a + b) t (List.replicate n (0:ℝ)) = t := by
  induction t generalizing n with
  | nil => simp
  | cons a ts ih =>
    cases n with
    | zero => simp at h
    | succ m =>
      simp only [List.replicate_succ, List.zipWith_cons_cons, add_zero]
      rw [ih m (by simpa using h)]

lemma applyRotaryRow_length_facts (t : List ℝ) :
    ((t.drop (t.length / 2)).map (fun v : ℝ => -v) ++ t.take (t.length / 2)).length
      = t.length := by
  simp
  omega

/-- At sequence position 0 every rotation angle is zero, so `cos = 1`,
`sin = 0` and the rotary transform is the identity on the row. -/
lemma applyRotaryRow_pos_zero (maxWavelength scaling : ℝ) (rotaryDim : ℕ)
    (t : List ℝ) (ht : t.length = rotaryDim) :
    applyRotaryRow maxWavelength scaling rotaryDim 0 t = t := by
  unfold applyRotaryRow
  simp only [Nat.cast_zero, zero_mul]
  have hmap : ∀ l : List ℝ, l.map (fun _ => (0:ℝ)) = List.replicate l.length 0 :=
    fun l => List.map_const' l 0
  rw [hmap]
  have hlen : (inverse_freq maxWavelength scaling rotaryDim).length
      = (rotaryDim + 1) / 2 := by
    simp [inverse_freq]
  rw [← List.replicate_add]
  rw [List.map_replicate, List.map_replicate, Real.cos_zero, Real.sin_zero]
  rw [zipWith_mul_replicate_one t _ (by rw [hlen]; omega)]
  rw [zipWith_mul_replicate_zero]
  rw [zipWith_add_replicate_zero t _ ?_]
  rw [applyRotaryRow_length_facts t, hlen]
  omega

/-! ## Claim theorems: rotary embedding, value level -/

/-- Claim C8.  For every rank-3 input (default axes) whose entries all sit at
sequence position 0 — every batch element has sequence length 1 — and whose
rows all have the feature length `rotary_dim` read by `call`, the rotation
angle is zero, `cos = 1`, `sin = 0`, and `call` returns the input
unchanged. -/
theorem rotary_position_zero_identity (maxWavelength scaling : ℝ)
    (x : List (List (List ℝ)))
    (hone : ∀ b ∈ x, b.length = 1)
    (hdim : ∀ b ∈ x, ∀ r ∈ b, r.length = ((x.headD []).headD []).length) :
    rotaryCall maxWavelength scaling x = x := by
  unfold rotaryCall
  have hall : ∀ b ∈ x,
      b.enum.map (fun pr => applyRotaryRow maxWavelength scaling
        ((x.headD []).headD []).length pr.1 pr.2) = b := by
    intro b hb
    obtain ⟨r, rfl⟩ := List.length_eq_one.mp (hone b hb)
    have hr : r.length = ((x.headD []).headD []).length :=
      hdim [r] hb r (by simp)
    simp only [List.enum_singleton, List.map_cons, List.map_nil]
    rw [applyRotaryRow_pos_zero maxWavelength scaling _ r hr]
  exact (List.map_congr_left hall).trans (List.map_id x)

/-- Witness for claim C8 at the concrete scenario of the spec:
`rotary_dim = 4`, `max_wavelength = 10000`, `seq_len = 1`, input row
`[1, 0, 1, 0]` at position 0. -/
theorem rotary_position_zero_identity_w :
    rotaryCall 10000 1 [[[(1:ℝ), 0, 1, 0]]] = [[[(1:ℝ), 0, 1, 0]]] :=
  rotary_position_zero_identity 10000 1 [[[(1:ℝ), 0, 1, 0]]]
    (by simp) (by simp)

lemma getD_map_of_lt (f : ℝ → ℝ) (l : List ℝ) (j : ℕ) (h : j < l.length) :
    (l.map f).getD j 0 = f (l.getD j 0) := by
  rw [List.getD_eq_getElem _ _ (by simpa using h), List.getD_eq_getElem _ _ h,
    List.getElem_map]

lemma getD_zipWith (f : ℝ → ℝ → ℝ) (l1 l2 : List ℝ) (j : ℕ)
    (h1 : j < l1.length) (h2 : j < l2.length) :
    (List.zipWith f l1 l2).getD j 0 = f (l1.getD j 0) (l2.getD j 0) := by
  induction l1 generalizing l2 j with
  | nil => simp at h1
  | cons a ts ih =>
    cases l2 with
    | nil => simp at h2
    | cons c cs =>
      cases j with
      | zero => simp
      | succ m =>
        simp only [List.zipWith_cons_cons, List.getD_cons_succ]
        exact ih cs m (by simpa using h1) (by simpa using h2)

lemma getD_append_of_lt (l1 l2 : List ℝ) (j : ℕ) (h : j < l1.length) :
    (l1 ++ l2).getD j 0 = l1.getD j 0 := by
  rw [List.getD_eq_getElem _ _ (by simp; omega), List.getD_eq_getElem _ _ h,
    List.getElem_append_left]

lemma getD_append_offset (l1 l2 : List ℝ) (j : ℕ) (h : j < l2.length) :
    (l1 ++ l2).getD (l1.length + j) 0 = l2.getD j 0 := by
  rw [List.getD_eq_getElem _ _ (by simp; omega), List.getD_eq_getElem _ _ h]
  rw [List.getElem_append_right] <;> simp

lemma getD_drop_of_lt (t : List ℝ) (n j : ℕ) (h : n + j < t.length) :
    (t.drop n).getD j 0 = t.getD (n + j) 0 := by
  rw [List.getD_eq_getElem _ _ (by simp; omega), List.getD_eq_getElem _ _ h,
    List.getElem_drop]

lemma getD_take_of_lt (t : List ℝ) (n j : ℕ) (h1 : j < n) (h2 : j < t.length) :
    (t.take n).getD j 0 = t.getD j 0 := by
  rw [List.getD_eq_getElem _ _ (by simp; omega), List.getD_eq_getElem _ _ h2,
    List.getElem_take]

/-- Each feature pair `(i, i + rotary_dim/2)` of a row undergoes a pure 2D
rotation by the angle `pos * inverse_freq[i]`, so the sum of squares of the
pair is unchanged. -/
lemma applyRotaryRow_pair_norm_sq (mw sc : ℝ) (d pos i : ℕ) (t : List ℝ)
    (ht : t.length = d) (he : d % 2 = 0) (hi : i < d / 2) :
    (applyRotaryRow mw sc d pos t).getD i 0 ^ 2
      + (applyRotaryRow mw sc d pos t).getD (i + d / 2) 0 ^ 2
    = t.getD i 0 ^ 2 + t.getD (i + d / 2) 0 ^ 2 := by
  have hdef : applyRotaryRow mw sc d pos t
      = List.zipWith (fun a b => a + b)
          (List.zipWith (fun a b => a * b) t
            (((inverse_freq mw sc d).map (fun w => (pos : ℝ) * w)
              ++ (inverse_freq mw sc d).map (fun w => (pos : ℝ) * w)).map Real.cos))
          (List.zipWith (fun a b => a * b)
            ((t.drop (t.length / 2)).map (fun v => -v) ++ t.take (t.length / 2))
            (((inverse_freq mw sc d).map (fun w => (pos : ℝ) * w)
              ++ (inverse_freq mw sc d).map (fun w => (pos : ℝ) * w)).map Real.sin)) :=
    rfl
  rw [hdef, ht]
  set F := (inverse_freq mw sc d).map (fun w => (pos : ℝ) * w) with hF
  set HR := (t.drop (d / 2)).map (fun v : ℝ => -v) ++ t.take (d / 2) with hHR
  have hFlen : F.length = d / 2 := by
    rw [hF]
    simp [inverse_freq]
    omega
  have hElen : (F ++ F).length = d := by
    simp [hFlen]
    omega
  have hHRlen : HR.length = d := by
    rw [hHR]
    simp [ht]
    omega
  have hid : i < d := by omega
  have hihd : i + d / 2 < d := by omega
  have hcosl : ((F ++ F).map Real.cos).length = d := by simpa using hElen
  have hsinl : ((F ++ F).map Real.sin).length = d := by simpa using hElen
  have hAl : (List.zipWith (fun a b => a * b) t ((F ++ F).map Real.cos)).length = d := by
    rw [List.length_zipWith, ht, hcosl]
    omega
  have hBl : (List.zipWith (fun a b => a * b) HR ((F ++ F).map Real.sin)).length = d := by
    rw [List.length_zipWith, hHRlen, hsinl]
    omega
  have hEi : (F ++ F).getD i 0 = F.getD i 0 :=
    getD_append_of_lt F F i (by omega)
  have hEih : (F ++ F).getD (i + d / 2) 0 = F.getD i 0 := by
    have : i + d / 2 = F.length + i := by omega
    rw [this, getD_append_offset F F i (by omega)]
  have hHRi : HR.getD i 0 = -(t.getD (d / 2 + i) 0) := by
    rw [hHR, getD_append_of_lt _ _ i (by simp [ht]; omega),
      getD_map_of_lt _ _ i (by simp [ht]; omega),
      getD_drop_of_lt t (d / 2) i (by omega)]
  have hHRih : HR.getD (i + d / 2) 0 = t.getD i 0 := by
    have hoff : i + d / 2 = ((t.drop (d / 2)).map (fun v : ℝ => -v)).length + i := by
      simp [ht]
      omega
    rw [hHR, hoff, getD_append_offset _ _ i (by simp [ht]; omega),
      getD_take_of_lt t (d / 2) i hi (by omega)]
  rw [getD_zipWith _ _ _ i (by rw [hAl]; exact hid) (by rw [hBl]; exact hid),
    getD_zipWith _ _ _ (i + d / 2) (by rw [hAl]; exact hihd) (by rw [hBl]; exact hihd),
    getD_zipWith _ t _ i (by rw [ht]; exact hid) (by rw [hcosl]; exact hid),
    getD_zipWith _ t _ (i + d / 2) (by rw [ht]; exact hihd) (by rw [hcosl]; exact hihd),
    getD_zipWith _ HR _ i (by rw [hHRlen]; exact hid) (by rw [hsinl]; exact hid),
    getD_zipWith _ HR _ (i + d / 2) (by rw [hHRlen]; exact hihd) (by rw [hsinl]; exact hihd),
    getD_map_of_lt Real.cos _ i (by rw [hElen]; exact hid),
    getD_map_of_lt Real.cos _ (i + d / 2) (by rw [hElen]; exact hihd),
    getD_map_of_lt Real.sin _ i (by rw [hElen]; exact hid),
    getD_map_of_lt Real.sin _ (i + d / 2) (by rw [hElen]; exact hihd),
    hEi, hEih, hHRi, hHRih]
  have hcomm : d / 2 + i = i + d / 2 := by omega
  rw [hcomm]
  nlinarith [Real.sin_sq_add_cos_sq (F.getD i 0),
    sq_nonneg (t.getD i 0), sq_nonneg (t.getD (i + d / 2) 0)]

lemma rotaryCall_row (mw sc : ℝ) (x : List (List (List ℝ))) (b s : ℕ)
    (hb : b < x.length) (hs : s < (x.getD b []).length) :
    ((rotaryCall mw sc x).getD b []).getD s []
      = applyRotaryRow mw sc ((x.headD []).headD []).length s
          ((x.getD b []).getD s []) := by
  have hdef : rotaryCall mw sc x
      = x.map (fun batchRow => batchRow.enum.map
          (fun pr => applyRotaryRow mw sc ((x.headD []).headD []).length
            pr.1 pr.2)) := rfl
  have h1 : (x.map (fun batchRow => batchRow.enum.map
      (fun pr => applyRotaryRow mw sc ((x.headD []).headD []).length pr.1 pr.2))).getD b []
      = (x.getD b []).enum.map
          (fun pr => applyRotaryRow mw sc ((x.headD []).headD []).length pr.1 pr.2) := by
    rw [List.getD_eq_getElem _ _ (by simpa using hb), List.getElem_map,
      List.getD_eq_getElem _ _ hb]
  rw [hdef, h1]
  have hsm : s < (((x.getD b []).enum).map
      (fun pr => applyRotaryRow mw sc ((x.headD []).headD []).length pr.1 pr.2)).length := by
    rw [List.length_map, List.enum_length]
    exact hs
  rw [List.getD_eq_getElem _ _ hsm, List.getElem_map, List.getElem_enum,
    List.getD_eq_getElem _ _ hs]

/-- Claim C9.  For every valid rank-3 input (default axes, even feature
length `d` matching the `rotary_dim` read by `call`), every batch element,
every sequence position and every feature pair `(i, i + d/2)`, the 2-norm of
the output pair equals the 2-norm of the input pair: each pair undergoes a
pure 2D rotation by the angle `position * inverse_freq[i]`. -/
theorem rotary_pair_norm_invariant (mw sc : ℝ) (x : List (List (List ℝ)))
    (d b s i : ℕ)
    (hd : ((x.headD []).headD []).length = d) (he : d % 2 = 0)
    (hdim : ∀ br ∈ x, ∀ r ∈ br, r.length = d)
    (hb : b < x.length) (hs : s < (x.getD b []).length) (hi : i < d / 2) :
    Real.sqrt ((((rotaryCall mw sc x).getD b []).getD s []).getD i 0 ^ 2
        + (((rotaryCall mw sc x).getD b []).getD s []).getD (i + d / 2) 0 ^ 2)
      = Real.sqrt (((x.getD b []).getD s []).getD i 0 ^ 2
        + ((x.getD b []).getD s []).getD (i + d / 2) 0 ^ 2) := by
  rw [rotaryCall_row mw sc x b s hb hs, hd]
  have hrlen : ((x.getD b []).getD s []).length = d := by
    apply hdim (x.getD b [])
    · rw [List.getD_eq_getElem _ _ hb]
      exact List.getElem_mem hb
    · rw [List.getD_eq_getElem _ _ hs]
      exact List.getElem_mem hs
  rw [applyRotaryRow_pair_norm_sq mw sc d s i _ hrlen he hi]

/-- Witness for claim C9 at the concrete input `[[[1, 0, 1, 0]]]`
(`d = 4`, batch 0, position 0, pair `(0, 2)`). -/
theorem rotary_pair_norm_invariant_w :
    Real.sqrt ((((rotaryCall 10000 1 [[[(1:ℝ), 0, 1, 0]]]).getD 0 []).getD 0 []).getD 0 0 ^ 2
        + (((rotaryCall 10000 1 [[[(1:ℝ), 0, 1, 0]]]).getD 0 []).getD 0 []).getD (0 + 4 / 2) 0 ^ 2)
      = Real.sqrt ((([[[(1:ℝ), 0, 1, 0]]].getD 0 []).getD 0 []).getD 0 0 ^ 2
        + (([[[(1:ℝ), 0, 1, 0]]].getD 0 []).getD 0 []).getD (0 + 4 / 2) 0 ^ 2) :=
  rotary_pair_norm_invariant 10000 1 [[[(1:ℝ), 0, 1, 0]]] 4 0 0 0
    rfl rfl (by simp) (by simp) (by simp) (by norm_num)

end KerasNLP
